import Mathlib

/-!
Verification of the GMRES repository (Arnoldi iteration, back substitution,
restarted left-preconditioned GMRES driver, Poisson discretisation).

Vectors are embedded as total functions `ℕ → ℝ` with an explicit dimension
carried by each operation; matrices as `ℕ → ℕ → ℝ` (row, column), with the
column-oriented Krylov basis `V : ℕ → (ℕ → ℝ)` mapping a column index to the
column vector, matching the `V[:, j]` accesses of the source.  Entries outside
the declared dimension are never read by the embedded operations.
-/

noncomputable section

namespace GMRES

/-- Dot product of the first `m` entries of two vectors
(`torch.dot` / `numpy` `@` on length-`m` tensors). -/
def dotN (m : ℕ) (u v : ℕ → ℝ) : ℝ := ∑ i ∈ Finset.range m, u i * v i

/-- Euclidean norm of the first `m` entries (`torch.norm(v, p = 2)`). -/
def normN (m : ℕ) (v : ℕ → ℝ) : ℝ := Real.sqrt (dotN m v v)

/-- Matrix-vector product `A @ y` where `A` has `n` columns. -/
def mulVecN (n : ℕ) (A : ℕ → ℕ → ℝ) (y : ℕ → ℝ) : ℕ → ℝ :=
  fun i => ∑ j ∈ Finset.range n, A i j * y j

/-- The recursive core of `back_substitution`: the loop
`for i in range(n - 1, -1, -1): x[i] = (b[i] - torch.sum(A[i, i+1:] * x[i+1:])) / A[i, i]`
computes, for each `i < m`, the value
`x i = (b i - ∑_{i < j < m} A i j * x j) / A i i`; indices `≥ m` are never
assigned (the embedded function returns `0` there).  The Python loop runs
downward so that each `x j` it reads is already final, which is exactly the
recursion below. -/
def backSubRec (m : ℕ) (A : ℕ → ℕ → ℝ) (b : ℕ → ℝ) (i : ℕ) : ℝ :=
  if _h : i < m then
    (b i - ∑ j ∈ ((Finset.range m).filter (fun j => i < j)).attach,
        A i j.1 * backSubRec m A b j.1) / A i i
  else 0
termination_by m - i
decreasing_by
  have hj := j.2
  simp only [Finset.mem_filter, Finset.mem_range] at hj
  omega

/-- A raw tensor-shaped matrix: the shape fields model `A.size(0)`, `A.size(1)`. -/
structure TMat where
  rows : ℕ
  cols : ℕ
  entry : ℕ → ℕ → ℝ

/-- A raw tensor-shaped vector: `len` models `b.size(0)`. -/
structure TVec where
  len : ℕ
  entry : ℕ → ℝ

/-- The default tolerance `tol = 1e-12` of `arnoldi_one_iter`. -/
def defaultTol : ℝ := 1e-12

/-- The loop body of the Gram-Schmidt orthogonalisation in `arnoldi_one_iter`:
`h_k[j] = torch.dot(v_new, V[:, j]); v_new = v_new - h_k[j] * V[:, j]`,
acting on the pair `(v_new, h_k)`. -/
def gsStep (n : ℕ) (V : ℕ → ℕ → ℝ) (wh : (ℕ → ℝ) × (ℕ → ℝ)) (j : ℕ) :
    (ℕ → ℝ) × (ℕ → ℝ) :=
  (fun i => wh.1 i - dotN n wh.1 (V j) * V j i,
   fun t => if t = j then dotN n wh.1 (V j) else wh.2 t)

/-- `arnoldi_one_iter(prec, A, V, k, tol)` from `GMRES_torch.ipynb`:
`v_new = prec(A @ V[:, k])`, the Gram-Schmidt loop `for j in range(k + 1)`,
`h_k[k + 1] = torch.norm(v_new, p = 2)`, then breakdown test `h_k[k+1] <= tol`
returning `(h_k, None)`, else `(h_k, v_new / h_k[k+1])`.  `h_k` starts as
`torch.zeros((k + 2,))`, embedded as the all-zero function. -/
def arnoldi_one_iter (n : ℕ) (prec : (ℕ → ℝ) → (ℕ → ℝ)) (A : ℕ → ℕ → ℝ)
    (V : ℕ → ℕ → ℝ) (k : ℕ) (tol : ℝ) : (ℕ → ℝ) × Option (ℕ → ℝ) :=
  let w0 := prec (mulVecN n A (V k))
  let wh := (List.range (k + 1)).foldl (gsStep n V) (w0, fun _ => 0)
  let hlast := normN n wh.1
  let h := fun t => if t = k + 1 then hlast else wh.2 t
  if hlast ≤ tol then (h, none) else (h, some (fun i => wh.1 i / hlast))

/-- Spec-side recurrence for the orthogonalisation: `w_0 = Op(V[:,k])` with
`Op = prec ∘ (A @ ·)`, and `w_{j+1} = w_j - ⟨w_j, V[:,j]⟩ · V[:,j]`. -/
def wSeq (n : ℕ) (prec : (ℕ → ℝ) → (ℕ → ℝ)) (A : ℕ → ℕ → ℝ)
    (V : ℕ → ℕ → ℝ) (k : ℕ) : ℕ → (ℕ → ℝ)
  | 0 => prec (mulVecN n A (V k))
  | j + 1 => fun i =>
      wSeq n prec A V k j i - dotN n (wSeq n prec A V k j) (V j) * V j i

/-- Modelled from the spec: the external `torch.linalg.qr(·, mode='complete')`
call computes a complete orthogonal factorisation `H = Q·R` of the
`m×n` matrix `H` with `Q` m×m orthogonal and `R` upper-trapezoidal.  The
library routine is not part of this repository; it is realised here as
classical Gram-Schmidt on the columns of `H` followed by standard-basis
candidates to complete `Q` to `m` columns.  This is `Q`'s column `j`. -/
def qrGSCol (m n : ℕ) (H : ℕ → ℕ → ℝ) (j : ℕ) : ℕ → ℝ :=
  let cand : ℕ → ℝ :=
    if j < n then (fun i => H i j) else (fun i => if i = j - n then 1 else 0)
  let r : ℕ → ℝ := fun i => cand i -
    ∑ t ∈ (Finset.range j).attach,
      dotN m cand (qrGSCol m n H t.1) * qrGSCol m n H t.1 i
  fun i => r i / normN m r
termination_by j
decreasing_by
  all_goals
    have ht := t.2
    simp only [Finset.mem_range] at ht
    omega

/-- Modelled from the spec: the full result of
`torch.linalg.qr(H[:m, :n], mode='complete')` — `Q` of size m×m from the
Gram-Schmidt columns, and `R = Qᵀ·H` restricted to its upper part. -/
def qrComplete (m n : ℕ) (H : ℕ → ℕ → ℝ) : (ℕ → ℕ → ℝ) × (ℕ → ℕ → ℝ) :=
  (fun i j => qrGSCol m n H j i,
   fun i j => if i ≤ j then dotN m (qrGSCol m n H i) (fun l => H l j) else 0)

/-- The local-variable state of `precon_GMRES_restarted`'s loop.  `xk = none`
models the Python local `xk` before its first assignment (reading it at the
final `return` raises `NameError`).  `prints` counts the
"ENCOUNTER EXACT SOLUTION" messages written to stdout. -/
structure GState where
  x0 : ℕ → ℝ
  xk : Option (ℕ → ℝ)
  p0 : ℝ
  beta : ℝ
  pk : ℝ
  k : ℕ
  totalK : ℕ
  errors : List ℝ
  V : ℕ → ℕ → ℝ
  H : ℕ → ℕ → ℝ
  prints : ℕ

/-- One iteration of the `while` body of `precon_GMRES_restarted`, up to (and
excluding) the restart check.  `torch.cat` of a zero column onto `V` and `H`
is a no-op in the total-function representation (unset columns are already
zero).  The call `back_substitution(R[:-1, :], beta * Q[0][:-1])` passes a
square (k+1)×(k+1) matrix with a length-(k+1) right-hand side, so its shape
checks pass and it reduces to the back-substitution loop `backSubRec`. -/
def gmresBody (n : ℕ) (prec : (ℕ → ℝ) → (ℕ → ℝ)) (A : ℕ → ℕ → ℝ)
    (s : GState) : GState :=
  let ar := arnoldi_one_iter n prec A s.V s.k defaultTol
  let H1 : ℕ → ℕ → ℝ := fun i j => if j = s.k ∧ i < s.k + 2 then ar.1 i else s.H i j
  let prints1 := match ar.2 with | none => s.prints + 1 | some _ => s.prints
  let errors1 := match ar.2 with | none => s.errors ++ [0] | some _ => s.errors
  let V1 := match ar.2 with
    | none => s.V
    | some v => fun j => if j = s.k + 1 then v else s.V j
  let Q := (qrComplete (s.k + 2) (s.k + 1) H1).1
  let R := (qrComplete (s.k + 2) (s.k + 1) H1).2
  let pk1 := |s.beta * Q 0 s.k|
  let yk := backSubRec (s.k + 1) R (fun j => s.beta * Q 0 j)
  let xk1 : ℕ → ℝ := fun i => s.x0 i + ∑ j ∈ Finset.range (s.k + 1), V1 j i * yk j
  { x0 := s.x0, xk := some xk1, p0 := s.p0, beta := s.beta, pk := pk1,
    k := s.k + 1, totalK := s.totalK + 1, errors := errors1 ++ [pk1],
    V := V1, H := H1, prints := prints1 }

/-- The restart block of `precon_GMRES_restarted` (`x0 = xk; r0 = b - A@x0;
r0 = prec(r0); p0 = ...; beta = pk = p0; k = 0; V, H reset`).  It always runs
right after an iteration body, so `xk` is assigned; the `none` branch is
unreachable. -/
def gmresRestart (n : ℕ) (prec : (ℕ → ℝ) → (ℕ → ℝ)) (A : ℕ → ℕ → ℝ)
    (b : ℕ → ℝ) (s : GState) : GState :=
  match s.xk with
  | none => s
  | some xk =>
    let r0 := prec (fun i => b i - mulVecN n A xk i)
    let p0 := normN n r0
    { x0 := xk, xk := s.xk, p0 := p0, beta := p0, pk := p0, k := 0,
      totalK := s.totalK, errors := s.errors,
      V := fun j => if j = 0 then (fun i => r0 i / p0) else (fun _ => 0),
      H := fun _ _ => 0, prints := s.prints }

/-- A full iteration of the `while` body: the body followed by the
`if restart is not None and k == restart` check. -/
def gmresStep (n : ℕ) (prec : (ℕ → ℝ) → (ℕ → ℝ)) (A : ℕ → ℕ → ℝ)
    (b : ℕ → ℝ) (restart? : Option ℕ) (s : GState) : GState :=
  let s1 := gmresBody n prec A s
  match restart? with
  | none => s1
  | some r => if s1.k = r then gmresRestart n prec A b s1 else s1

/-- The `while pk > epsilon * p0 and total_k < k_max` loop.  The body
increments `total_k` by exactly 1 and the guard requires `total_k < k_max`,
so the loop runs at most `k_max` iterations; calling with `fuel = k_max`
therefore gives exactly the Python while-loop semantics. -/
def gmresLoop (n : ℕ) (prec : (ℕ → ℝ) → (ℕ → ℝ)) (A : ℕ → ℕ → ℝ)
    (b : ℕ → ℝ) (restart? : Option ℕ) (eps : ℝ) (kmax : ℕ) :
    ℕ → GState → GState
  | 0, s => s
  | fuel + 1, s =>
    if s.pk > eps * s.p0 ∧ s.totalK < kmax then
      gmresLoop n prec A b restart? eps kmax fuel (gmresStep n prec A b restart? s)
    else s

/-- `x0 = x0 if x0 is not None else torch.zeros_like(b)`. -/
def gmresX0 (x0? : Option (ℕ → ℝ)) : ℕ → ℝ :=
  match x0? with
  | some x => x
  | none => fun _ => 0

/-- `if k_max is None or k_max > n: k_max = n`. -/
def kmaxEff (n : ℕ) : Option ℕ → ℕ
  | none => n
  | some m => if m > n then n else m

/-- The initialisation of `precon_GMRES_restarted` before the loop:
`r0 = prec(b - A@x0)`, `p0 = torch.norm(r0)`, `beta = pk = p0`,
`error_list = [p0]`, `V[:,0] = r0/beta`, `H` zero, `xk` unassigned. -/
def gmresInit (n : ℕ) (prec : (ℕ → ℝ) → (ℕ → ℝ)) (A : ℕ → ℕ → ℝ)
    (b : ℕ → ℝ) (x0 : ℕ → ℝ) : GState :=
  let r0 := prec (fun i => b i - mulVecN n A x0 i)
  let p0 := normN n r0
  { x0 := x0, xk := none, p0 := p0, beta := p0, pk := p0, k := 0, totalK := 0,
    errors := [p0],
    V := fun j => if j = 0 then (fun i => r0 i / p0) else (fun _ => 0),
    H := fun _ _ => 0, prints := 0 }

/-- The final loop state of `precon_GMRES_restarted(prec, A, b, x0, k_max,
restart, epsilon)` (with `n = A.shape[0]` and the `k_max` clamp applied). -/
def gmresRunState (prec : (ℕ → ℝ) → (ℕ → ℝ)) (A : TMat) (b : ℕ → ℝ)
    (x0? : Option (ℕ → ℝ)) (kmax? restart? : Option ℕ) (epsilon : ℝ) : GState :=
  gmresLoop A.rows prec A.entry b restart? epsilon (kmaxEff A.rows kmax?)
    (kmaxEff A.rows kmax?) (gmresInit A.rows prec A.entry b (gmresX0 x0?))

/-- Python exceptions the driver can surface at its `return` statement.
`nameError` models `NameError: name 'xk' is not defined` (the loop body never
ran).  `invalidParameter` models the spec's `InvalidParameterError`; no code
path in the source raises it — the constructor exists so that statements
about it can be expressed. -/
inductive PyErr where
  | nameError : PyErr
  | invalidParameter : PyErr
deriving DecidableEq

/-- `precon_GMRES_restarted` from `GMRES_torch.ipynb`: runs the loop and
executes `return xk, error_list, total_k`. -/
def precon_GMRES_restarted (prec : (ℕ → ℝ) → (ℕ → ℝ)) (A : TMat) (b : ℕ → ℝ)
    (x0? : Option (ℕ → ℝ)) (kmax? restart? : Option ℕ) (epsilon : ℝ) :
    Except PyErr ((ℕ → ℝ) × List ℝ × ℕ) :=
  let s := gmresRunState prec A b x0? kmax? restart? epsilon
  match s.xk with
  | none => Except.error PyErr.nameError
  | some x => Except.ok (x, s.errors, s.totalK)

/-- `true` exactly on a normal (non-raising) return of the driver. -/
def exceptOk (e : Except PyErr ((ℕ → ℝ) × List ℝ × ℕ)) : Bool :=
  match e with
  | Except.ok _ => true
  | Except.error _ => false

/-- The observable output of the driver: `(xk, error_list, total_k)` with
`xk` still optional. -/
def gOut (s : GState) : Option (ℕ → ℝ) × List ℝ × ℕ :=
  (s.xk, s.errors, s.totalK)

/-- Concrete 1×1 system `A = [[2]]` used to exercise the driver on an input
whose first Arnoldi step breaks down (`A·r0` is parallel to `r0`). -/
def cexA : TMat := ⟨1, 1, fun _ _ => 2⟩

/-- Concrete right-hand side `b = [1]` for `cexA`. -/
def cexB : ℕ → ℝ := fun _ => 1

/-- The canonical first basis vector `e₁` (unit component at index 0), the
right-hand side direction of the GMRES least-squares problem `min ‖βe₁ - Hy‖`. -/
def e1N : ℕ → ℝ := fun i => if i = 0 then 1 else 0

/-- Concrete 2×1 Hessenberg column `H = [[0], [1]]` (arising when `A·r0 ⊥ r0`),
used against the residual-estimate formula. -/
def cexH : ℕ → ℕ → ℝ := fun i j => if i = 1 ∧ j = 0 then 1 else 0

/-- The orthogonal factor of the complete QR factorisation of `cexH`:
`Q = [[0, 1], [1, 0]]`. -/
def cexQ : ℕ → ℕ → ℝ := fun i j =>
  if (i = 0 ∧ j = 1) ∨ (i = 1 ∧ j = 0) then 1 else 0

/-- The triangular factor of the complete QR factorisation of `cexH`:
`R = [[1], [0]]`. -/
def cexR : ℕ → ℕ → ℝ := fun i j => if i = 0 ∧ j = 0 then 1 else 0

/-- The node enumeration of `discretise_poisson`:
`for j in range(N): for i in range(N):` (outer `j`, inner `i`), as the list
of index pairs `(j, i)`. -/
def poissonNodes (N : ℕ) : List (ℕ × ℕ) :=
  (List.range N).flatMap (fun j => (List.range N).map (fun i => (j, i)))

/-- The COO triplets `(row, col, value)` that the loop body of
`discretise_poisson` emits at node `p = (j, i)`: one diagonal `1` on a
boundary node (`i == 0 or i == N - 1 or j == 0 or j == N - 1`), the 5-point
stencil (centre `4(N-1)²`, neighbours `-(N-1)²` at `i±1` and `j±1`) on an
interior node.  The `data` array is `np.float64`, hence real values. -/
def nodeTriplets (N : ℕ) (p : ℕ × ℕ) : List (ℕ × ℕ × ℝ) :=
  if p.2 = 0 ∨ p.2 = N - 1 ∨ p.1 = 0 ∨ p.1 = N - 1 then
    [(p.1 * N + p.2, p.1 * N + p.2, (1 : ℝ))]
  else
    [(p.1 * N + p.2, p.1 * N + p.2, 4 * ((N : ℝ) - 1) ^ 2),
     (p.1 * N + p.2, p.1 * N + p.2 + 1, -(((N : ℝ) - 1) ^ 2)),
     (p.1 * N + p.2, p.1 * N + p.2 - 1, -(((N : ℝ) - 1) ^ 2)),
     (p.1 * N + p.2, (p.1 + 1) * N + p.2, -(((N : ℝ) - 1) ^ 2)),
     (p.1 * N + p.2, (p.1 - 1) * N + p.2, -(((N : ℝ) - 1) ^ 2))]

/-- All COO triplets `(row_ind, col_ind, data)` of `discretise_poisson(N)` in
emission order.  For `N ≥ 2` the number of emitted triplets is exactly the
preallocated `nelements = 5N² - 16N + 16`, so no uninitialised `np.empty`
slot remains in the arrays. -/
def poissonTriplets (N : ℕ) : List (ℕ × ℕ × ℝ) :=
  (poissonNodes N).flatMap (nodeTriplets N)

/-- Dense view of `scipy.sparse.coo_matrix((data, (row_ind, col_ind)))`: the
`(r, c)` entry is the sum of the data over all triplets at `(r, c)` (COO
semantics sum duplicate positions; the Poisson generator emits none). -/
def cooToDense (L : List (ℕ × ℕ × ℝ)) (r c : ℕ) : ℝ :=
  match L with
  | [] => 0
  | t :: ts => (if t.1 = r ∧ t.2.1 = c then t.2.2 else 0) + cooToDense ts r c

/-- The assignment `f[j * N + i] = (0 if boundary else 1)` performed at node
`p = (j, i)` of the `discretise_poisson` loop. -/
def poissonFStep (N : ℕ) (f : ℕ → ℝ) (p : ℕ × ℕ) : ℕ → ℝ :=
  fun idx => if idx = p.1 * N + p.2 then
    (if p.2 = 0 ∨ p.2 = N - 1 ∨ p.1 = 0 ∨ p.1 = N - 1 then 0 else 1)
  else f idx

/-- The forcing vector `f` of `discretise_poisson`: each slot `j*N + i` of
the `np.empty(N * N)` array is written exactly once by the node loop
(slots never written are modelled as 0). -/
def poissonF (N : ℕ) : ℕ → ℝ :=
  (poissonNodes N).foldl (poissonFStep N) (fun _ => 0)

/-- `discretise_poisson(N)` from `GMRES_torch.ipynb`: the dense view of the
returned `N²×N²` COO matrix, and the forcing vector. -/
def discretise_poisson (N : ℕ) : (ℕ → ℕ → ℝ) × (ℕ → ℝ) :=
  (cooToDense (poissonTriplets N), poissonF N)

/-- The two `ValueError`s that `back_substitution` can raise
("Matrix A must be square." and "Dimensions of A and b are incompatible."). -/
inductive ValErr where
  | notSquare : ValErr
  | incompatible : ValErr
deriving DecidableEq

/-- `back_substitution(A, b)` from `GMRES_torch.ipynb`: checks that `A` is
square of the size of `b` (raising `ValueError` otherwise), then solves the
upper-triangular system by the downward loop `backSubRec`. -/
def back_substitution (A : TMat) (b : TVec) : Except ValErr TVec :=
  let n := b.len
  if A.rows ≠ n ∨ A.cols ≠ n then
    Except.error ValErr.notSquare
  else if A.rows ≠ b.len then
    Except.error ValErr.incompatible
  else
    Except.ok ⟨n, backSubRec n A.entry b.entry⟩

end GMRES

namespace GMRES

theorem backSubRec_eq (m : ℕ) (A : ℕ → ℕ → ℝ) (b : ℕ → ℝ) (i : ℕ) :
    backSubRec m A b i =
      if i < m then
        (b i - ∑ j ∈ (Finset.range m).filter (fun j => i < j),
            A i j * backSubRec m A b j) / A i i
      else 0 := by
  rw [backSubRec]
  by_cases h : i < m
  · rw [dif_pos h, if_pos h,
      Finset.sum_attach ((Finset.range m).filter (fun j => i < j))
        (fun j => A i j * backSubRec m A b j)]
  · rw [dif_neg h, if_neg h]

/-- Back substitution on an upper-triangular matrix with nonzero diagonal
solves the system: row `i` of `A · x` recovers `b i`. -/
theorem backSubRec_solves (m : ℕ) (A : ℕ → ℕ → ℝ) (b : ℕ → ℝ)
    (hUT : ∀ i, i < m → ∀ j, j < i → A i j = 0)
    (hDiag : ∀ i, i < m → A i i ≠ 0) :
    ∀ i, i < m → ∑ j ∈ Finset.range m, A i j * backSubRec m A b j = b i := by
  intro i hi
  have hsplit :
      ∑ j ∈ Finset.range m, A i j * backSubRec m A b j =
        (∑ j ∈ (Finset.range m).filter (fun j => j < i), A i j * backSubRec m A b j)
        + ∑ j ∈ (Finset.range m).filter (fun j => ¬ j < i), A i j * backSubRec m A b j := by
    rw [Finset.sum_filter_add_sum_filter_not]
  have hlow :
      ∑ j ∈ (Finset.range m).filter (fun j => j < i), A i j * backSubRec m A b j = 0 := by
    refine Finset.sum_eq_zero ?_
    intro j hj
    simp only [Finset.mem_filter, Finset.mem_range] at hj
    rw [hUT i hi j hj.2]
    ring
  have hins :
      (Finset.range m).filter (fun j => ¬ j < i) =
        insert i ((Finset.range m).filter (fun j => i < j)) := by
    ext j
    simp only [Finset.mem_filter, Finset.mem_range, Finset.mem_insert]
    constructor
    · rintro ⟨hjm, hji⟩
      rcases Nat.lt_or_ge i j with h | h
      · exact Or.inr ⟨hjm, h⟩
      · exact Or.inl (by omega)
    · rintro (rfl | ⟨hjm, hij⟩)
      · exact ⟨hi, by omega⟩
      · exact ⟨hjm, by omega⟩
  have hnotmem : i ∉ (Finset.range m).filter (fun j => i < j) := by
    simp only [Finset.mem_filter, Finset.mem_range]
    omega
  have hxi : backSubRec m A b i =
      (b i - ∑ j ∈ (Finset.range m).filter (fun j => i < j),
          A i j * backSubRec m A b j) / A i i := by
    rw [backSubRec_eq, if_pos hi]
  rw [hsplit, hlow, hins, Finset.sum_insert hnotmem, hxi, zero_add, mul_comm,
    div_mul_cancel₀ _ (hDiag i hi)]
  ring

/-- C4: for every square upper-triangular `m×m` matrix `R` with nonzero
diagonal entries and every vector `y` of length `m`, the triangular solver
returns `z` with `R·z = y` (back substitution from the last row upward). -/
theorem back_substitution_solves (m : ℕ) (R : ℕ → ℕ → ℝ) (y : ℕ → ℝ)
    (hUT : ∀ i, i < m → ∀ j, j < i → R i j = 0)
    (hDiag : ∀ i, i < m → R i i ≠ 0) :
    ∀ i, i < m → mulVecN m R (backSubRec m R y) i = y i := by
  intro i hi
  exact backSubRec_solves m R y hUT hDiag i hi

/-- Witness for C4 at the concrete upper-triangular system
`R = [[2, 1], [0, 1]]`, `y = (3, 1)`: row 0 of `R · z` gives back `y 0 = 3`. -/
theorem back_substitution_solves_witness :
    mulVecN 2 (fun i j => if i = 0 ∧ j = 0 then (2 : ℝ) else if i ≤ j then 1 else 0)
      (backSubRec 2 (fun i j => if i = 0 ∧ j = 0 then (2 : ℝ) else if i ≤ j then 1 else 0)
        (fun i => if i = 0 then (3 : ℝ) else 1)) 0
      = (if (0 : ℕ) = 0 then (3 : ℝ) else 1) := by
  refine back_substitution_solves 2
    (fun i j => if i = 0 ∧ j = 0 then (2 : ℝ) else if i ≤ j then 1 else 0)
    (fun i => if i = 0 then (3 : ℝ) else 1) ?_ ?_ 0 (by norm_num)
  · intro i hi j hj
    have h1 : ¬ (i = 0 ∧ j = 0) := by omega
    have h2 : ¬ i ≤ j := by omega
    simp [h1, h2]
  · intro i hi
    interval_cases i <;> norm_num

/-- C5: the triangular solver raises a `ValueError` exactly when `A` is not
square of the size of `b`; with compatible dimensions it always returns a
result, performing no singular-matrix check (a zero diagonal entry does not
raise — the embedded real-number division is total, modelling the source's
policy of letting non-finite values propagate instead of raising). -/
theorem back_substitution_error_iff (A : TMat) (b : TVec) :
    (∃ e, back_substitution A b = Except.error e) ↔
      ¬ (A.rows = b.len ∧ A.cols = b.len) := by
  simp only [back_substitution]
  by_cases h : A.rows ≠ b.len ∨ A.cols ≠ b.len
  · rw [if_pos h]
    constructor
    · intro _
      tauto
    · intro _
      exact ⟨ValErr.notSquare, rfl⟩
  · rw [if_neg h]
    push_neg at h
    rw [if_neg (by omega : ¬ A.rows ≠ b.len)]
    constructor
    · rintro ⟨e, he⟩
      exact Except.noConfusion he
    · intro hc
      exact absurd ⟨h.1, h.2⟩ hc

/-- The Gram-Schmidt fold of `arnoldi_one_iter` computes the spec-side
recurrence `wSeq` together with the coefficients `h j = ⟨w_j, V[:,j]⟩`. -/
theorem arnoldi_foldl (n : ℕ) (prec : (ℕ → ℝ) → (ℕ → ℝ)) (A : ℕ → ℕ → ℝ)
    (V : ℕ → ℕ → ℝ) (k : ℕ) : ∀ t,
    (List.range t).foldl (gsStep n V) (wSeq n prec A V k 0, fun _ => 0) =
      (wSeq n prec A V k t,
       fun u => if u < t then dotN n (wSeq n prec A V k u) (V u) else 0) := by
  intro t
  induction t with
  | zero =>
    simp only [List.range_zero, List.foldl_nil]
    exact Prod.ext rfl (by funext u; simp)
  | succ t ih =>
    rw [List.range_succ, List.foldl_append, ih]
    simp only [List.foldl_cons, List.foldl_nil]
    refine Prod.ext rfl ?_
    funext u
    simp only [gsStep]
    by_cases hu : u = t
    · subst hu
      simp
    · by_cases hu2 : u < t
      · simp [hu, hu2, Nat.lt_succ_of_lt hu2]
      · have : ¬ u < t + 1 := by omega
        simp [hu, hu2, this]

/-- Closed form of `arnoldi_one_iter` in terms of the recurrence `wSeq`:
the returned Hessenberg column and optional basis vector. -/
theorem arnoldi_one_iter_eq (n : ℕ) (prec : (ℕ → ℝ) → (ℕ → ℝ))
    (A : ℕ → ℕ → ℝ) (V : ℕ → ℕ → ℝ) (k : ℕ) (tol : ℝ) :
    arnoldi_one_iter n prec A V k tol =
      (fun t => if t ≤ k then dotN n (wSeq n prec A V k t) (V t)
         else if t = k + 1 then normN n (wSeq n prec A V k (k + 1)) else 0,
       if normN n (wSeq n prec A V k (k + 1)) ≤ tol then none
       else some (fun i =>
         wSeq n prec A V k (k + 1) i / normN n (wSeq n prec A V k (k + 1)))) := by
  have hw0 : prec (mulVecN n A (V k)) = wSeq n prec A V k 0 := rfl
  simp only [arnoldi_one_iter, hw0, arnoldi_foldl n prec A V k (k + 1)]
  have hfun :
      (fun t => if t = k + 1 then normN n (wSeq n prec A V k (k + 1))
         else if t < k + 1 then dotN n (wSeq n prec A V k t) (V t) else 0) =
      (fun t => if t ≤ k then dotN n (wSeq n prec A V k t) (V t)
         else if t = k + 1 then normN n (wSeq n prec A V k (k + 1)) else 0) := by
    funext t
    by_cases h1 : t = k + 1
    · have : ¬ t ≤ k := by omega
      simp [h1, this]
    · by_cases h2 : t ≤ k
      · have : t < k + 1 := by omega
        simp [h1, h2, this]
      · have : ¬ t < k + 1 := by omega
        simp [h1, h2, this]
  split_ifs with hb
  · exact Prod.ext hfun rfl
  · exact Prod.ext hfun rfl

/-- C2: `arnoldi_one_iter` computes `w = prec(A·V[:,k])`, orthogonalises by
Gram-Schmidt in increasing column order `j = 0..k` with `h[j] = ⟨w_j, V[:,j]⟩`
and `w_{j+1} = w_j − h[j]·V[:,j]`, sets `h[k+1] = ‖w_{k+1}‖₂`, and if
`h[k+1] ≤ tol` (with `tol = 1e-12` passed by the driver as default) returns
the Hessenberg column of length `k+2` (zero beyond index `k+1`) with no new
basis vector — the breakdown signal — and otherwise returns both `h` and the
normalised new basis vector `v_new = w_{k+1} / h[k+1]`. -/
theorem arnoldi_one_iter_spec (n : ℕ) (prec : (ℕ → ℝ) → (ℕ → ℝ))
    (A : ℕ → ℕ → ℝ) (V : ℕ → ℕ → ℝ) (k : ℕ) (tol : ℝ) :
    arnoldi_one_iter n prec A V k tol =
      (fun t => if t ≤ k then dotN n (wSeq n prec A V k t) (V t)
         else if t = k + 1 then normN n (wSeq n prec A V k (k + 1)) else 0,
       if normN n (wSeq n prec A V k (k + 1)) ≤ tol then none
       else some (fun i =>
         wSeq n prec A V k (k + 1) i / normN n (wSeq n prec A V k (k + 1)))) :=
  arnoldi_one_iter_eq n prec A V k tol

theorem gmresLoop_stop (n : ℕ) (prec : (ℕ → ℝ) → (ℕ → ℝ)) (A : ℕ → ℕ → ℝ)
    (b : ℕ → ℝ) (restart? : Option ℕ) (eps : ℝ) (kmax : ℕ) (fuel : ℕ)
    (s : GState) (h : ¬ (s.pk > eps * s.p0 ∧ s.totalK < kmax)) :
    gmresLoop n prec A b restart? eps kmax fuel s = s := by
  cases fuel with
  | zero => rfl
  | succ f => simp only [gmresLoop, if_neg h]

theorem gmresBody_k (n : ℕ) (prec : (ℕ → ℝ) → (ℕ → ℝ)) (A : ℕ → ℕ → ℝ)
    (s : GState) : (gmresBody n prec A s).k = s.k + 1 := rfl

theorem gmresBody_totalK (n : ℕ) (prec : (ℕ → ℝ) → (ℕ → ℝ)) (A : ℕ → ℕ → ℝ)
    (s : GState) : (gmresBody n prec A s).totalK = s.totalK + 1 := rfl

theorem gmresBody_trace (n : ℕ) (prec : (ℕ → ℝ) → (ℕ → ℝ)) (A : ℕ → ℕ → ℝ)
    (s : GState) :
    (gmresBody n prec A s).errors.length + s.prints
      = s.errors.length + 1 + (gmresBody n prec A s).prints := by
  simp only [gmresBody]
  rcases har : (arnoldi_one_iter n prec A s.V s.k defaultTol).2 with _ | v
  · simp only [har, List.length_append, List.length_cons, List.length_nil]
    ring
  · simp only [har, List.length_append, List.length_cons, List.length_nil]

theorem gmresRestart_gOut (n : ℕ) (prec : (ℕ → ℝ) → (ℕ → ℝ)) (A : ℕ → ℕ → ℝ)
    (b : ℕ → ℝ) (s : GState) : gOut (gmresRestart n prec A b s) = gOut s := by
  unfold gmresRestart gOut
  cases hx : s.xk <;> simp [hx]

theorem gmresRestart_totalK (n : ℕ) (prec : (ℕ → ℝ) → (ℕ → ℝ))
    (A : ℕ → ℕ → ℝ) (b : ℕ → ℝ) (s : GState) :
    (gmresRestart n prec A b s).totalK = s.totalK := by
  unfold gmresRestart
  cases hx : s.xk <;> simp [hx]

theorem gmresRestart_errors (n : ℕ) (prec : (ℕ → ℝ) → (ℕ → ℝ))
    (A : ℕ → ℕ → ℝ) (b : ℕ → ℝ) (s : GState) :
    (gmresRestart n prec A b s).errors = s.errors := by
  unfold gmresRestart
  cases hx : s.xk <;> simp [hx]

theorem gmresRestart_prints (n : ℕ) (prec : (ℕ → ℝ) → (ℕ → ℝ))
    (A : ℕ → ℕ → ℝ) (b : ℕ → ℝ) (s : GState) :
    (gmresRestart n prec A b s).prints = s.prints := by
  unfold gmresRestart
  cases hx : s.xk <;> simp [hx]

theorem gmresStep_none (n : ℕ) (prec : (ℕ → ℝ) → (ℕ → ℝ)) (A : ℕ → ℕ → ℝ)
    (b : ℕ → ℝ) (s : GState) :
    gmresStep n prec A b none s = gmresBody n prec A s := rfl

theorem gmresStep_trace (n : ℕ) (prec : (ℕ → ℝ) → (ℕ → ℝ)) (A : ℕ → ℕ → ℝ)
    (b : ℕ → ℝ) (restart? : Option ℕ) (s : GState) :
    (gmresStep n prec A b restart? s).errors.length + s.prints
      = s.errors.length + 1 + (gmresStep n prec A b restart? s).prints
    ∧ (gmresStep n prec A b restart? s).totalK = s.totalK + 1 := by
  cases restart? with
  | none =>
    rw [gmresStep_none]
    exact ⟨gmresBody_trace n prec A s, gmresBody_totalK n prec A s⟩
  | some r =>
    by_cases hr : (gmresBody n prec A s).k = r
    · have hstep : gmresStep n prec A b (some r) s
          = gmresRestart n prec A b (gmresBody n prec A s) := by
        simp only [gmresStep]
        rw [if_pos hr]
      rw [hstep, gmresRestart_errors, gmresRestart_prints, gmresRestart_totalK]
      exact ⟨gmresBody_trace n prec A s, gmresBody_totalK n prec A s⟩
    · have hstep : gmresStep n prec A b (some r) s = gmresBody n prec A s := by
        simp only [gmresStep]
        rw [if_neg hr]
      rw [hstep]
      exact ⟨gmresBody_trace n prec A s, gmresBody_totalK n prec A s⟩

theorem gmresLoop_trace (n : ℕ) (prec : (ℕ → ℝ) → (ℕ → ℝ)) (A : ℕ → ℕ → ℝ)
    (b : ℕ → ℝ) (restart? : Option ℕ) (eps : ℝ) (kmax : ℕ) : ∀ fuel s,
    (gmresLoop n prec A b restart? eps kmax fuel s).errors.length
        + s.totalK + s.prints
      = s.errors.length + (gmresLoop n prec A b restart? eps kmax fuel s).totalK
        + (gmresLoop n prec A b restart? eps kmax fuel s).prints := by
  intro fuel
  induction fuel with
  | zero => intro s; rfl
  | succ f ih =>
    intro s
    by_cases hc : s.pk > eps * s.p0 ∧ s.totalK < kmax
    · simp only [gmresLoop, if_pos hc]
      have h1 := gmresStep_trace n prec A b restart? s
      have h2 := ih (gmresStep n prec A b restart? s)
      omega
    · simp only [gmresLoop, if_neg hc]

theorem gmresBody_head (n : ℕ) (prec : (ℕ → ℝ) → (ℕ → ℝ)) (A : ℕ → ℕ → ℝ)
    (s : GState) (e : ℝ) (es : List ℝ) (hes : s.errors = e :: es) :
    (gmresBody n prec A s).errors.head? = some e
    ∧ (gmresBody n prec A s).errors ≠ [] := by
  simp only [gmresBody]
  cases har : (arnoldi_one_iter n prec A s.V s.k defaultTol).2 <;>
    simp [har, hes]

theorem gmresStep_head (n : ℕ) (prec : (ℕ → ℝ) → (ℕ → ℝ)) (A : ℕ → ℕ → ℝ)
    (b : ℕ → ℝ) (restart? : Option ℕ) (s : GState) (e : ℝ) (es : List ℝ)
    (hes : s.errors = e :: es) :
    (gmresStep n prec A b restart? s).errors.head? = some e
    ∧ (gmresStep n prec A b restart? s).errors ≠ [] := by
  cases restart? with
  | none =>
    rw [gmresStep_none]
    exact gmresBody_head n prec A s e es hes
  | some r =>
    by_cases hr : (gmresBody n prec A s).k = r
    · have hstep : gmresStep n prec A b (some r) s
          = gmresRestart n prec A b (gmresBody n prec A s) := by
        simp only [gmresStep]
        rw [if_pos hr]
      rw [hstep, gmresRestart_errors]
      exact gmresBody_head n prec A s e es hes
    · have hstep : gmresStep n prec A b (some r) s = gmresBody n prec A s := by
        simp only [gmresStep]
        rw [if_neg hr]
      rw [hstep]
      exact gmresBody_head n prec A s e es hes

theorem gmresLoop_head (n : ℕ) (prec : (ℕ → ℝ) → (ℕ → ℝ)) (A : ℕ → ℕ → ℝ)
    (b : ℕ → ℝ) (restart? : Option ℕ) (eps : ℝ) (kmax : ℕ) : ∀ fuel s e es,
    s.errors = e :: es →
    (gmresLoop n prec A b restart? eps kmax fuel s).errors.head? = some e := by
  intro fuel
  induction fuel with
  | zero =>
    intro s e es hes
    simp [gmresLoop, hes]
  | succ f ih =>
    intro s e es hes
    by_cases hc : s.pk > eps * s.p0 ∧ s.totalK < kmax
    · simp only [gmresLoop, if_pos hc]
      rcases hse : (gmresStep n prec A b restart? s).errors with _ | ⟨e1, t⟩
      · exact absurd hse (gmresStep_head n prec A b restart? s e es hes).2
      · have h1 := (gmresStep_head n prec A b restart? s e es hes).1
        rw [hse] at h1
        simp only [List.head?_cons, Option.some.injEq] at h1
        subst h1
        exact ih (gmresStep n prec A b restart? s) e1 t hse
    · simp only [gmresLoop, if_neg hc, hes, List.head?_cons]

/-- C3 divergence: whenever the preconditioned initial residual is zero
(`β = 0`), the loop guard `pk > epsilon * p0` is false at entry, the body
never runs, and `return xk` reads the never-assigned local `xk`: the driver
raises `NameError` instead of returning `x0`. -/
theorem gmres_beta_zero_nameError (prec : (ℕ → ℝ) → (ℕ → ℝ)) (A : TMat)
    (b : ℕ → ℝ) (x0? : Option (ℕ → ℝ)) (kmax? restart? : Option ℕ) (eps : ℝ)
    (h : (gmresInit A.rows prec A.entry b (gmresX0 x0?)).p0 = 0) :
    precon_GMRES_restarted prec A b x0? kmax? restart? eps
      = Except.error PyErr.nameError := by
  have hpk : (gmresInit A.rows prec A.entry b (gmresX0 x0?)).pk = 0 := h
  have hstop : ¬ ((gmresInit A.rows prec A.entry b (gmresX0 x0?)).pk
      > eps * (gmresInit A.rows prec A.entry b (gmresX0 x0?)).p0
      ∧ (gmresInit A.rows prec A.entry b (gmresX0 x0?)).totalK
        < kmaxEff A.rows kmax?) := by
    rw [hpk, h, mul_zero]
    intro hcon
    exact lt_irrefl 0 hcon.1
  simp only [precon_GMRES_restarted, gmresRunState]
  rw [gmresLoop_stop _ _ _ _ _ _ _ _ _ hstop]
  rfl

/-- Witness for C3 at `A = [[1]]`, `b = [0]`, `x0 = [0]` (so `r0 = 0`,
`β = 0`): the driver raises `NameError`. -/
theorem gmres_beta_zero_nameError_witness :
    precon_GMRES_restarted (fun x => x) ⟨1, 1, fun _ _ => 1⟩ (fun _ => 0)
      (some (fun _ => 0)) none none (1e-12) = Except.error PyErr.nameError := by
  refine gmres_beta_zero_nameError (fun x => x) ⟨1, 1, fun _ _ => 1⟩
    (fun _ => 0) (some (fun _ => 0)) none none (1e-12) ?_
  simp [gmresInit, gmresX0, normN, dotN, mulVecN]

/-- C10: omitting the initial guess (`x0 = None`) is the same as passing the
zero vector explicitly (`x0 = x0 if x0 is not None else torch.zeros_like(b)`;
in the total-function embedding the zero vector of `b`'s length is the zero
function). -/
theorem gmres_x0_none_default (prec : (ℕ → ℝ) → (ℕ → ℝ)) (A : TMat)
    (b : ℕ → ℝ) (kmax? restart? : Option ℕ) (eps : ℝ) :
    precon_GMRES_restarted prec A b none kmax? restart? eps
      = precon_GMRES_restarted prec A b (some (fun _ => 0)) kmax? restart? eps := rfl

theorem c7_loop (n : ℕ) (prec : (ℕ → ℝ) → (ℕ → ℝ)) (A : ℕ → ℕ → ℝ)
    (b : ℕ → ℝ) (eps : ℝ) (kmax m : ℕ) (hkm : kmax ≤ m) : ∀ fuel s,
    s.k = s.totalK →
    gOut (gmresLoop n prec A b (some m) eps kmax fuel s)
      = gOut (gmresLoop n prec A b none eps kmax fuel s) := by
  intro fuel
  induction fuel with
  | zero => intro s _; rfl
  | succ f ih =>
    intro s hs
    by_cases hc : s.pk > eps * s.p0 ∧ s.totalK < kmax
    · simp only [gmresLoop, if_pos hc]
      rw [gmresStep_none]
      by_cases hr : (gmresBody n prec A s).k = m
      · have hstep : gmresStep n prec A b (some m) s
            = gmresRestart n prec A b (gmresBody n prec A s) := by
          simp only [gmresStep]
          rw [if_pos hr]
        rw [hstep]
        have hk := gmresBody_k n prec A s
        have htot := gmresBody_totalK n prec A s
        have htot2 : ¬ ((gmresBody n prec A s).totalK < kmax) := by omega
        have hstop1 : ¬ ((gmresRestart n prec A b (gmresBody n prec A s)).pk
            > eps * (gmresRestart n prec A b (gmresBody n prec A s)).p0
            ∧ (gmresRestart n prec A b (gmresBody n prec A s)).totalK < kmax) := by
          rw [gmresRestart_totalK]
          intro hcon
          exact htot2 hcon.2
        have hstop2 : ¬ ((gmresBody n prec A s).pk
            > eps * (gmresBody n prec A s).p0
            ∧ (gmresBody n prec A s).totalK < kmax) := by
          intro hcon
          exact htot2 hcon.2
        rw [gmresLoop_stop _ _ _ _ _ _ _ _ _ hstop1,
          gmresLoop_stop _ _ _ _ _ _ _ _ _ hstop2]
        exact gmresRestart_gOut n prec A b (gmresBody n prec A s)
      · have hstep : gmresStep n prec A b (some m) s = gmresBody n prec A s := by
          simp only [gmresStep]
          rw [if_neg hr]
        rw [hstep]
        refine ih (gmresBody n prec A s) ?_
        rw [gmresBody_k, gmresBody_totalK, hs]
    · simp only [gmresLoop, if_neg hc]

/-- C7: running the driver with `restart = k_max` produces output identical
to running it with `restart = None`: with `restart = k_max` the restart can
only trigger on the very last permitted iteration (`k = total_k = k_max`),
after which the loop guard `total_k < k_max` fails in either run, and the
restart block does not alter the returned `xk`, `error_list` or `total_k`. -/
theorem gmres_restart_kmax_eq_none (prec : (ℕ → ℝ) → (ℕ → ℝ)) (A : TMat)
    (b : ℕ → ℝ) (x0? : Option (ℕ → ℝ)) (kmax? : Option ℕ) (eps : ℝ) :
    precon_GMRES_restarted prec A b x0? kmax? kmax? eps
      = precon_GMRES_restarted prec A b x0? kmax? none eps := by
  cases kmax? with
  | none => rfl
  | some m =>
    have hkm : kmaxEff A.rows (some m) ≤ m := by
      simp only [kmaxEff]
      split <;> omega
    have h := c7_loop A.rows prec A.entry b eps (kmaxEff A.rows (some m)) m hkm
      (kmaxEff A.rows (some m))
      (gmresInit A.rows prec A.entry b (gmresX0 x0?)) rfl
    have h1 : (gmresLoop A.rows prec A.entry b (some m) eps
          (kmaxEff A.rows (some m)) (kmaxEff A.rows (some m))
          (gmresInit A.rows prec A.entry b (gmresX0 x0?))).xk
        = (gmresLoop A.rows prec A.entry b none eps (kmaxEff A.rows (some m))
            (kmaxEff A.rows (some m))
            (gmresInit A.rows prec A.entry b (gmresX0 x0?))).xk :=
      congrArg (fun p => p.1) h
    have h2 : (gmresLoop A.rows prec A.entry b (some m) eps
          (kmaxEff A.rows (some m)) (kmaxEff A.rows (some m))
          (gmresInit A.rows prec A.entry b (gmresX0 x0?))).errors
        = (gmresLoop A.rows prec A.entry b none eps (kmaxEff A.rows (some m))
            (kmaxEff A.rows (some m))
            (gmresInit A.rows prec A.entry b (gmresX0 x0?))).errors :=
      congrArg (fun p => p.2.1) h
    have h3 : (gmresLoop A.rows prec A.entry b (some m) eps
          (kmaxEff A.rows (some m)) (kmaxEff A.rows (some m))
          (gmresInit A.rows prec A.entry b (gmresX0 x0?))).totalK
        = (gmresLoop A.rows prec A.entry b none eps (kmaxEff A.rows (some m))
            (kmaxEff A.rows (some m))
            (gmresInit A.rows prec A.entry b (gmresX0 x0?))).totalK :=
      congrArg (fun p => p.2.2) h
    simp only [precon_GMRES_restarted, gmresRunState]
    rw [h1, h2, h3]

/-- C6 amended: the residual trace holds the seed `β` at position 0 and, per
completed iteration, one appended estimate `p_k` — plus one extra appended
`0` for every iteration on which Arnoldi breakdown was signalled (the code
appends the `0` placeholder and then falls through to append `p_k` as well).
Hence the trace has length `total_k + 1 + (number of breakdown signals)`. -/
theorem gmres_trace_shape (prec : (ℕ → ℝ) → (ℕ → ℝ)) (A : TMat) (b : ℕ → ℝ)
    (x0? : Option (ℕ → ℝ)) (kmax? restart? : Option ℕ) (eps : ℝ) :
    (gmresRunState prec A b x0? kmax? restart? eps).errors.length
      = (gmresRunState prec A b x0? kmax? restart? eps).totalK + 1
        + (gmresRunState prec A b x0? kmax? restart? eps).prints
    ∧ (gmresRunState prec A b x0? kmax? restart? eps).errors.head?
      = some ((gmresInit A.rows prec A.entry b (gmresX0 x0?)).p0) := by
  unfold gmresRunState
  constructor
  · have h := gmresLoop_trace A.rows prec A.entry b restart? eps
      (kmaxEff A.rows kmax?) (kmaxEff A.rows kmax?)
      (gmresInit A.rows prec A.entry b (gmresX0 x0?))
    have h1 : (gmresInit A.rows prec A.entry b (gmresX0 x0?)).errors.length = 1 := rfl
    have h2 : (gmresInit A.rows prec A.entry b (gmresX0 x0?)).totalK = 0 := rfl
    have h3 : (gmresInit A.rows prec A.entry b (gmresX0 x0?)).prints = 0 := rfl
    omega
  · exact gmresLoop_head A.rows prec A.entry b restart? eps
      (kmaxEff A.rows kmax?) (kmaxEff A.rows kmax?)
      (gmresInit A.rows prec A.entry b (gmresX0 x0?))
      ((gmresInit A.rows prec A.entry b (gmresX0 x0?)).p0) [] rfl

theorem cex_p0 : (gmresInit 1 (fun x => x) cexA.entry cexB (gmresX0 none)).p0 = 1 := by
  simp [gmresInit, gmresX0, cexA, cexB, normN, dotN, mulVecN, Finset.sum_range_one,
    Real.sqrt_one]

theorem cex_V0 : (gmresInit 1 (fun x => x) cexA.entry cexB (gmresX0 none)).V
    = fun j => if j = 0 then (fun _ => (1 : ℝ)) else (fun _ => 0) := by
  funext j i
  by_cases hj : j = 0
  · simp [gmresInit, gmresX0, cexA, cexB, normN, dotN, mulVecN,
      Finset.sum_range_one, Real.sqrt_one, hj]
  · simp [gmresInit, hj]

theorem cex_arnoldi :
    (arnoldi_one_iter 1 (fun x => x) cexA.entry
      (gmresInit 1 (fun x => x) cexA.entry cexB (gmresX0 none)).V 0 defaultTol).2
      = none := by
  have hw1 : wSeq 1 (fun x => x) cexA.entry
      (gmresInit 1 (fun x => x) cexA.entry cexB (gmresX0 none)).V 0 1
      = fun _ => (0 : ℝ) := by
    funext i
    simp only [wSeq, cex_V0]
    norm_num [mulVecN, dotN, Finset.sum_range_one, cexA]
  have hn : normN 1 (wSeq 1 (fun x => x) cexA.entry
      (gmresInit 1 (fun x => x) cexA.entry cexB (gmresX0 none)).V 0 (0 + 1))
      ≤ defaultTol := by
    rw [show (0 + 1 : ℕ) = 1 from rfl, hw1]
    simp [normN, dotN, Finset.sum_range_one, defaultTol]
    norm_num
  rw [arnoldi_one_iter_eq]
  simp only [if_pos hn]

theorem gmresBody_errors_length_breakdown (n : ℕ) (prec : (ℕ → ℝ) → (ℕ → ℝ))
    (A : ℕ → ℕ → ℝ) (s : GState)
    (h : (arnoldi_one_iter n prec A s.V s.k defaultTol).2 = none) :
    (gmresBody n prec A s).errors.length = s.errors.length + 2 := by
  simp only [gmresBody, h]
  simp

theorem cex_run : gmresRunState (fun x => x) cexA cexB none none none (1e-12)
    = gmresBody 1 (fun x => x) cexA.entry
        (gmresInit 1 (fun x => x) cexA.entry cexB (gmresX0 none)) := by
  have hcond : (gmresInit 1 (fun x => x) cexA.entry cexB (gmresX0 none)).pk
      > (1e-12 : ℝ) * (gmresInit 1 (fun x => x) cexA.entry cexB (gmresX0 none)).p0
      ∧ (gmresInit 1 (fun x => x) cexA.entry cexB (gmresX0 none)).totalK < 1 := by
    constructor
    · have hp : (gmresInit 1 (fun x => x) cexA.entry cexB (gmresX0 none)).pk = 1 :=
        cex_p0
      rw [hp, cex_p0]
      norm_num
    · exact Nat.zero_lt_one
  show gmresLoop 1 (fun x => x) cexA.entry cexB none (1e-12) 1 1
      (gmresInit 1 (fun x => x) cexA.entry cexB (gmresX0 none))
    = gmresBody 1 (fun x => x) cexA.entry
        (gmresInit 1 (fun x => x) cexA.entry cexB (gmresX0 none))
  simp only [gmresLoop, if_pos hcond]
  rfl

/-- C6 counterexample: on the 1×1 system `A = [[2]]`, `b = [1]` with the
default zero initial guess, the first iteration signals breakdown; the run
performs `total_k = 1` iteration but the returned residual trace has length
3 (`[β, 0, p_0]`), not `total_k + 1 = 2`. -/
theorem gmres_trace_length_cex :
    (gmresRunState (fun x => x) cexA cexB none none none (1e-12)).errors.length = 3
    ∧ (gmresRunState (fun x => x) cexA cexB none none none (1e-12)).totalK = 1
    ∧ (gmresRunState (fun x => x) cexA cexB none none none (1e-12)).errors.length
      ≠ (gmresRunState (fun x => x) cexA cexB none none none (1e-12)).totalK + 1 := by
  have h1 : (gmresRunState (fun x => x) cexA cexB none none none (1e-12)).errors.length
      = 3 := by
    rw [cex_run, gmresBody_errors_length_breakdown 1 (fun x => x) cexA.entry
      (gmresInit 1 (fun x => x) cexA.entry cexB (gmresX0 none)) cex_arnoldi]
    rfl
  have h2 : (gmresRunState (fun x => x) cexA cexB none none none (1e-12)).totalK
      = 1 := by
    rw [cex_run]
    rfl
  exact ⟨h1, h2, by rw [h1, h2]; norm_num⟩

theorem gmres_kmax_zero_nameError (prec : (ℕ → ℝ) → (ℕ → ℝ)) (A : TMat)
    (b : ℕ → ℝ) (x0? : Option (ℕ → ℝ)) (restart? : Option ℕ) (eps : ℝ) :
    precon_GMRES_restarted prec A b x0? (some 0) restart? eps
      = Except.error PyErr.nameError := by
  simp only [precon_GMRES_restarted, gmresRunState]
  have hk : kmaxEff A.rows (some 0) = 0 := by
    simp [kmaxEff]
  rw [hk]
  rfl

theorem gmresRestart_xk (n : ℕ) (prec : (ℕ → ℝ) → (ℕ → ℝ)) (A : ℕ → ℕ → ℝ)
    (b : ℕ → ℝ) (s : GState) : (gmresRestart n prec A b s).xk = s.xk := by
  unfold gmresRestart
  cases hx : s.xk <;> simp [hx]

theorem gmresStep_xk_isSome (n : ℕ) (prec : (ℕ → ℝ) → (ℕ → ℝ))
    (A : ℕ → ℕ → ℝ) (b : ℕ → ℝ) (restart? : Option ℕ) (s : GState) :
    (gmresStep n prec A b restart? s).xk.isSome = true := by
  cases restart? with
  | none => rfl
  | some r =>
    by_cases hr : (gmresBody n prec A s).k = r
    · have hstep : gmresStep n prec A b (some r) s
          = gmresRestart n prec A b (gmresBody n prec A s) := by
        simp only [gmresStep]
        rw [if_pos hr]
      rw [hstep, gmresRestart_xk]
      rfl
    · have hstep : gmresStep n prec A b (some r) s = gmresBody n prec A s := by
        simp only [gmresStep]
        rw [if_neg hr]
      rw [hstep]
      rfl

theorem gmresLoop_xk_isSome (n : ℕ) (prec : (ℕ → ℝ) → (ℕ → ℝ))
    (A : ℕ → ℕ → ℝ) (b : ℕ → ℝ) (restart? : Option ℕ) (eps : ℝ) (kmax : ℕ) :
    ∀ fuel s, s.xk.isSome = true →
    (gmresLoop n prec A b restart? eps kmax fuel s).xk.isSome = true := by
  intro fuel
  induction fuel with
  | zero => intro s h; exact h
  | succ f ih =>
    intro s h
    by_cases hc : s.pk > eps * s.p0 ∧ s.totalK < kmax
    · simp only [gmresLoop, if_pos hc]
      exact ih (gmresStep n prec A b restart? s)
        (gmresStep_xk_isSome n prec A b restart? s)
    · simp only [gmresLoop, if_neg hc]
      exact h

theorem gmres_eps_nonpos_ok (prec : (ℕ → ℝ) → (ℕ → ℝ)) (A : TMat)
    (b : ℕ → ℝ) (x0? : Option (ℕ → ℝ)) (kmax? restart? : Option ℕ) (eps : ℝ)
    (heps : eps ≤ 0)
    (hp0 : 0 < (gmresInit A.rows prec A.entry b (gmresX0 x0?)).p0)
    (hkm : 1 ≤ kmaxEff A.rows kmax?) :
    exceptOk (precon_GMRES_restarted prec A b x0? kmax? restart? eps) = true := by
  simp only [precon_GMRES_restarted, gmresRunState]
  obtain ⟨f, hf⟩ : ∃ f, kmaxEff A.rows kmax? = f + 1 :=
    ⟨kmaxEff A.rows kmax? - 1, by omega⟩
  rw [hf]
  have hcond : (gmresInit A.rows prec A.entry b (gmresX0 x0?)).pk
      > eps * (gmresInit A.rows prec A.entry b (gmresX0 x0?)).p0
      ∧ (gmresInit A.rows prec A.entry b (gmresX0 x0?)).totalK < f + 1 := by
    constructor
    · have hpk : (gmresInit A.rows prec A.entry b (gmresX0 x0?)).pk
          = (gmresInit A.rows prec A.entry b (gmresX0 x0?)).p0 := rfl
      rw [gt_iff_lt, hpk]
      nlinarith
    · exact Nat.succ_pos f
  simp only [gmresLoop, if_pos hcond]
  have his := gmresLoop_xk_isSome A.rows prec A.entry b restart? eps (f + 1) f
    (gmresStep A.rows prec A.entry b restart?
      (gmresInit A.rows prec A.entry b (gmresX0 x0?)))
    (gmresStep_xk_isSome A.rows prec A.entry b restart?
      (gmresInit A.rows prec A.entry b (gmresX0 x0?)))
  rcases hx : (gmresLoop A.rows prec A.entry b restart? eps (f + 1) f
      (gmresStep A.rows prec A.entry b restart?
        (gmresInit A.rows prec A.entry b (gmresX0 x0?)))).xk with _ | x
  · rw [hx] at his
    exact absurd his (by simp)
  · rfl

/-- C8 amended: the driver performs no parameter validation and no
`InvalidParameterError` exists.  With `k_max = 0` (a non-positive iteration
bound) the clamp keeps it at 0, the loop body never runs, and the `return xk`
raises `NameError`; with `epsilon ≤ 0` no error is raised at all — the guard
`pk > epsilon * p0` stays true and the driver runs to the iteration cap and
returns normally. -/
theorem gmres_no_parameter_validation :
    (∀ (prec : (ℕ → ℝ) → (ℕ → ℝ)) (A : TMat) (b : ℕ → ℝ)
        (x0? : Option (ℕ → ℝ)) (restart? : Option ℕ) (eps : ℝ),
      precon_GMRES_restarted prec A b x0? (some 0) restart? eps
        = Except.error PyErr.nameError)
    ∧ (∀ (prec : (ℕ → ℝ) → (ℕ → ℝ)) (A : TMat) (b : ℕ → ℝ)
        (x0? : Option (ℕ → ℝ)) (kmax? restart? : Option ℕ) (eps : ℝ),
      eps ≤ 0 →
      0 < (gmresInit A.rows prec A.entry b (gmresX0 x0?)).p0 →
      1 ≤ kmaxEff A.rows kmax? →
      exceptOk (precon_GMRES_restarted prec A b x0? kmax? restart? eps) = true) :=
  ⟨gmres_kmax_zero_nameError, gmres_eps_nonpos_ok⟩

/-- Witness for the amended C8: on `A = [[2]]`, `b = [1]`, calling with
`k_max = 0` raises `NameError`, and calling with `epsilon = -1` returns
normally. -/
theorem gmres_no_parameter_validation_witness :
    precon_GMRES_restarted (fun x => x) cexA cexB none (some 0) none (1e-12)
      = Except.error PyErr.nameError
    ∧ exceptOk (precon_GMRES_restarted (fun x => x) cexA cexB none none none (-1))
      = true :=
  ⟨gmres_no_parameter_validation.1 (fun x => x) cexA cexB none none (1e-12),
   gmres_no_parameter_validation.2 (fun x => x) cexA cexB none none none (-1)
     (by norm_num)
     (by rw [show gmresInit cexA.rows (fun x => x) cexA.entry cexB (gmresX0 none)
           = gmresInit 1 (fun x => x) cexA.entry cexB (gmresX0 none) from rfl,
         cex_p0]; norm_num)
     (Nat.le_refl 1)⟩

/-- C8 counterexample: with the non-positive iteration bound `k_max = 0` the
driver raises `NameError` (from the never-assigned `xk`), not an
`InvalidParameterError`; and with the non-positive tolerance `epsilon = -1`
it raises nothing at all, returning normally. -/
theorem gmres_invalid_parameter_cex :
    precon_GMRES_restarted (fun x => x) cexA cexB none (some 0) none (1e-12)
      = Except.error PyErr.nameError
    ∧ precon_GMRES_restarted (fun x => x) cexA cexB none (some 0) none (1e-12)
      ≠ Except.error PyErr.invalidParameter
    ∧ exceptOk (precon_GMRES_restarted (fun x => x) cexA cexB none none none (-1))
      = true := by
  have h1 := gmres_kmax_zero_nameError (fun x => x) cexA cexB none none (1e-12)
  refine ⟨h1, ?_, ?_⟩
  · rw [h1]
    intro hcon
    have h2 : PyErr.nameError = PyErr.invalidParameter := by
      injection hcon
    exact PyErr.noConfusion h2
  · refine gmres_eps_nonpos_ok (fun x => x) cexA cexB none none none (-1)
      (by norm_num) ?_ (Nat.le_refl 1)
    rw [show gmresInit cexA.rows (fun x => x) cexA.entry cexB (gmresX0 none)
        = gmresInit 1 (fun x => x) cexA.entry cexB (gmresX0 none) from rfl, cex_p0]
    norm_num

theorem cooToDense_append (L1 L2 : List (ℕ × ℕ × ℝ)) (r c : ℕ) :
    cooToDense (L1 ++ L2) r c = cooToDense L1 r c + cooToDense L2 r c := by
  induction L1 with
  | nil => simp [cooToDense]
  | cons t ts ih => simp [cooToDense, ih]; ring

theorem cooToDense_flatMap {α : Type} (f : α → List (ℕ × ℕ × ℝ)) (L : List α)
    (r c : ℕ) :
    cooToDense (L.flatMap f) r c = (L.map (fun p => cooToDense (f p) r c)).sum := by
  induction L with
  | nil => rfl
  | cons a l ih =>
    rw [List.flatMap_cons, cooToDense_append, List.map_cons, List.sum_cons, ih]

theorem cooToDense_zero_of_ne_row (L : List (ℕ × ℕ × ℝ)) (r c : ℕ)
    (h : ∀ t ∈ L, t.1 ≠ r) : cooToDense L r c = 0 := by
  induction L with
  | nil => rfl
  | cons t ts ih =>
    simp only [cooToDense]
    rw [if_neg (fun hcon => h t (List.mem_cons_self t ts) hcon.1),
      ih (fun u hu => h u (List.mem_cons_of_mem t hu))]
    ring

theorem sum_map_eq_of_unique {α : Type} (L : List α) (g : α → ℝ) (p₀ : α)
    (hmem : p₀ ∈ L) (hnd : L.Nodup) (hz : ∀ p ∈ L, p ≠ p₀ → g p = 0) :
    (L.map g).sum = g p₀ := by
  induction L with
  | nil => cases hmem
  | cons a l ih =>
    simp only [List.map_cons, List.sum_cons]
    rcases List.mem_cons.mp hmem with rfl | hmem'
    · have hz2 : ∀ x ∈ l.map g, x = 0 := by
        intro x hx
        rcases List.mem_map.mp hx with ⟨p, hp, rfl⟩
        refine hz p (List.mem_cons_of_mem _ hp) ?_
        intro he
        exact (List.nodup_cons.mp hnd).1 (he ▸ hp)
      rw [List.sum_eq_zero hz2, add_zero]
    · have ha : g a = 0 := by
        refine hz a (List.mem_cons_self _ _) ?_
        intro he
        exact (List.nodup_cons.mp hnd).1 (he ▸ hmem')
      rw [ha, zero_add]
      exact ih hmem' (List.nodup_cons.mp hnd).2
        (fun p hp => hz p (List.mem_cons_of_mem _ hp))

theorem nodeTriplets_row (N : ℕ) (p : ℕ × ℕ) :
    ∀ t ∈ nodeTriplets N p, t.1 = p.1 * N + p.2 := by
  intro t ht
  unfold nodeTriplets at ht
  split_ifs at ht with hb
  · simp only [List.mem_singleton] at ht
    rw [ht]
  · simp only [List.mem_cons, List.mem_singleton, List.not_mem_nil, or_false] at ht
    rcases ht with rfl | rfl | rfl | rfl | rfl <;> rfl

theorem rowkey_inj (N i j i2 j2 : ℕ) (hi : i < N) (hi2 : i2 < N)
    (h : j * N + i = j2 * N + i2) : j = j2 ∧ i = i2 := by
  have hN : 0 < N := Nat.lt_of_le_of_lt (Nat.zero_le i) hi
  have e1 : (j * N + i) / N = j := by
    rw [Nat.add_comm, Nat.add_mul_div_right _ _ hN, Nat.div_eq_of_lt hi, Nat.zero_add]
  have e2 : (j2 * N + i2) / N = j2 := by
    rw [Nat.add_comm, Nat.add_mul_div_right _ _ hN, Nat.div_eq_of_lt hi2, Nat.zero_add]
  have m1 : (j * N + i) % N = i := by
    rw [Nat.add_comm, Nat.add_mul_mod_self_right, Nat.mod_eq_of_lt hi]
  have m2 : (j2 * N + i2) % N = i2 := by
    rw [Nat.add_comm, Nat.add_mul_mod_self_right, Nat.mod_eq_of_lt hi2]
  constructor
  · rw [← e1, ← e2, h]
  · rw [← m1, ← m2, h]

theorem mem_poissonNodes (N : ℕ) (p : ℕ × ℕ) :
    p ∈ poissonNodes N ↔ p.1 < N ∧ p.2 < N := by
  cases p with
  | mk j i =>
    simp [poissonNodes, List.mem_flatMap, List.mem_map, List.mem_range]

theorem poissonNodes_nodup (N : ℕ) : (poissonNodes N).Nodup := by
  have he : poissonNodes N = (List.range N) ×ˢ (List.range N) := rfl
  rw [he]
  exact List.Nodup.product (List.nodup_range N) (List.nodup_range N)

theorem poisson_entry (N i j : ℕ) (hi : i < N) (hj : j < N) (c : ℕ) :
    cooToDense (poissonTriplets N) (j * N + i) c
      = cooToDense (nodeTriplets N (j, i)) (j * N + i) c := by
  unfold poissonTriplets
  rw [cooToDense_flatMap]
  refine sum_map_eq_of_unique (poissonNodes N) _ (j, i)
    ((mem_poissonNodes N (j, i)).mpr ⟨hj, hi⟩) (poissonNodes_nodup N) ?_
  intro p hp hpne
  refine cooToDense_zero_of_ne_row _ _ _ ?_
  intro t ht
  rw [nodeTriplets_row N p t ht]
  intro he
  have hpr := (mem_poissonNodes N p).mp hp
  obtain ⟨e1, e2⟩ := rowkey_inj N p.2 p.1 i j hpr.2 hi he
  exact hpne (Prod.ext e1 e2)

theorem boundary_row (N i j : ℕ) (hb : i = 0 ∨ i = N - 1 ∨ j = 0 ∨ j = N - 1)
    (c : ℕ) :
    cooToDense (nodeTriplets N (j, i)) (j * N + i) c
      = if c = j * N + i then 1 else 0 := by
  unfold nodeTriplets
  rw [if_pos hb]
  by_cases hc : c = j * N + i
  · subst hc
    simp [cooToDense]
  · simp [cooToDense, hc, Ne.symm hc]

theorem interior_row (N i j : ℕ) (hN : 2 ≤ N) (hi : i < N) (hj : j < N)
    (hb : ¬ (i = 0 ∨ i = N - 1 ∨ j = 0 ∨ j = N - 1)) (c : ℕ) :
    cooToDense (nodeTriplets N (j, i)) (j * N + i) c
      = if c = j * N + i then 4 * ((N : ℝ) - 1) ^ 2
        else if c = j * N + i + 1 ∨ c = j * N + i - 1
            ∨ c = (j + 1) * N + i ∨ c = (j - 1) * N + i
          then -(((N : ℝ) - 1) ^ 2) else 0 := by
  unfold nodeTriplets
  rw [if_neg hb]
  push_neg at hb
  have hjl : 1 ≤ j := by omega
  have hil : 1 ≤ i := by omega
  have hjN : N ≤ j * N := by
    calc N = 1 * N := (one_mul N).symm
    _ ≤ j * N := Nat.mul_le_mul_right N hjl
  have e1 : (j + 1) * N + i = j * N + N + i := by ring
  have e2 : (j - 1) * N + i = j * N - N + i := by
    rw [Nat.sub_mul, one_mul]
  simp only [cooToDense]
  rw [e1, e2]
  simp only [true_and]
  split_ifs <;> try (exfalso; omega)
  all_goals ring

theorem poissonF_skip (N x : ℕ) : ∀ (L : List (ℕ × ℕ)) (f0 : ℕ → ℝ),
    (∀ p ∈ L, p.1 * N + p.2 ≠ x) →
    L.foldl (poissonFStep N) f0 x = f0 x := by
  intro L
  induction L with
  | nil => intro f0 _; rfl
  | cons a l ih =>
    intro f0 h
    simp only [List.foldl_cons]
    rw [ih _ (fun p hp => h p (List.mem_cons_of_mem a hp))]
    simp only [poissonFStep]
    rw [if_neg (fun he => h a (List.mem_cons_self a l) he.symm)]

theorem poissonF_at (N i j : ℕ) (hi : i < N) :
    ∀ (L : List (ℕ × ℕ)) (f0 : ℕ → ℝ), L.Nodup →
    (∀ p ∈ L, p.1 < N ∧ p.2 < N) → (j, i) ∈ L →
    L.foldl (poissonFStep N) f0 (j * N + i)
      = if i = 0 ∨ i = N - 1 ∨ j = 0 ∨ j = N - 1 then 0 else 1 := by
  intro L
  induction L with
  | nil => intro f0 _ _ hmem; cases hmem
  | cons a l ih =>
    intro f0 hnd hrange hmem
    simp only [List.foldl_cons]
    rcases List.mem_cons.mp hmem with rfl | hmem'
    · have hnl : (j, i) ∉ l := (List.nodup_cons.mp hnd).1
      rw [poissonF_skip N (j * N + i) l _ ?_]
      · simp [poissonFStep]
      · intro p hp he
        have hpr := hrange p (List.mem_cons_of_mem _ hp)
        obtain ⟨e1, e2⟩ := rowkey_inj N p.2 p.1 i j hpr.2 hi he
        have hpe : p = (j, i) := Prod.ext e1 e2
        exact hnl (hpe ▸ hp)
    · exact ih (poissonFStep N f0 a) (List.nodup_cons.mp hnd).2
        (fun p hp => hrange p (List.mem_cons_of_mem _ hp)) hmem'

theorem poissonF_value (N i j : ℕ) (hi : i < N) (hj : j < N) :
    poissonF N (j * N + i)
      = if i = 0 ∨ i = N - 1 ∨ j = 0 ∨ j = N - 1 then 0 else 1 :=
  poissonF_at N i j hi (poissonNodes N) (fun _ => 0) (poissonNodes_nodup N)
    (fun p hp => (mem_poissonNodes N p).mp hp)
    ((mem_poissonNodes N (j, i)).mpr ⟨hj, hi⟩)

/-- C9: for `N ≥ 2`, `discretise_poisson(N)` gives every boundary node
(`i` or `j` equal to `0` or `N-1`) an identity row with forcing term 0, and
every interior node the 5-point stencil row — centre `4(N-1)²`, the four
neighbours `-(N-1)²`, all other columns 0 — with forcing term 1. -/
theorem discretise_poisson_spec (N i j : ℕ) (hN : 2 ≤ N) (hi : i < N)
    (hj : j < N) :
    ((i = 0 ∨ i = N - 1 ∨ j = 0 ∨ j = N - 1) →
      (∀ c, c < N * N →
        (discretise_poisson N).1 (j * N + i) c = if c = j * N + i then 1 else 0)
      ∧ (discretise_poisson N).2 (j * N + i) = 0)
    ∧ (¬ (i = 0 ∨ i = N - 1 ∨ j = 0 ∨ j = N - 1) →
      (discretise_poisson N).1 (j * N + i) (j * N + i) = 4 * ((N : ℝ) - 1) ^ 2
      ∧ (discretise_poisson N).1 (j * N + i) (j * N + i + 1) = -(((N : ℝ) - 1) ^ 2)
      ∧ (discretise_poisson N).1 (j * N + i) (j * N + i - 1) = -(((N : ℝ) - 1) ^ 2)
      ∧ (discretise_poisson N).1 (j * N + i) ((j + 1) * N + i) = -(((N : ℝ) - 1) ^ 2)
      ∧ (discretise_poisson N).1 (j * N + i) ((j - 1) * N + i) = -(((N : ℝ) - 1) ^ 2)
      ∧ (∀ c, c < N * N → c ≠ j * N + i → c ≠ j * N + i + 1 → c ≠ j * N + i - 1 →
          c ≠ (j + 1) * N + i → c ≠ (j - 1) * N + i →
          (discretise_poisson N).1 (j * N + i) c = 0)
      ∧ (discretise_poisson N).2 (j * N + i) = 1) := by
  have hA : (discretise_poisson N).1 = cooToDense (poissonTriplets N) := rfl
  have hF : (discretise_poisson N).2 = poissonF N := rfl
  constructor
  · intro hb
    constructor
    · intro c _
      rw [hA, poisson_entry N i j hi hj c, boundary_row N i j hb c]
    · rw [hF, poissonF_value N i j hi hj, if_pos hb]
  · intro hb
    have hkey : ∀ c, cooToDense (poissonTriplets N) (j * N + i) c
        = if c = j * N + i then 4 * ((N : ℝ) - 1) ^ 2
          else if c = j * N + i + 1 ∨ c = j * N + i - 1
              ∨ c = (j + 1) * N + i ∨ c = (j - 1) * N + i
            then -(((N : ℝ) - 1) ^ 2) else 0 := by
      intro c
      rw [poisson_entry N i j hi hj c, interior_row N i j hN hi hj hb c]
    have hb2 : i ≠ 0 ∧ i ≠ N - 1 ∧ j ≠ 0 ∧ j ≠ N - 1 := by
      push_neg at hb
      exact hb
    have hjN : N ≤ j * N := by
      calc N = 1 * N := (one_mul N).symm
      _ ≤ j * N := Nat.mul_le_mul_right N (by omega)
    have e1 : (j + 1) * N + i = j * N + N + i := by ring
    have e2 : (j - 1) * N + i = j * N - N + i := by
      rw [Nat.sub_mul, one_mul]
    refine ⟨?_, ?_, ?_, ?_, ?_, ?_, ?_⟩
    · rw [hA, hkey, if_pos rfl]
    · rw [hA, hkey, if_neg (by omega), if_pos (Or.inl rfl)]
    · rw [hA, hkey, if_neg (by omega), if_pos (Or.inr (Or.inl rfl))]
    · rw [hA, hkey, if_neg (by omega), if_pos (Or.inr (Or.inr (Or.inl rfl)))]
    · rw [hA, hkey, if_neg (by omega), if_pos (Or.inr (Or.inr (Or.inr rfl)))]
    · intro c _ h1 h2 h3 h4 h5
      rw [hA, hkey, if_neg h1, if_neg (by tauto)]
    · rw [hF, poissonF_value N i j hi hj, if_neg hb]

/-- Witness for C9 at `N = 3`: the single interior node `(1,1)` and the
boundary node `(0,0)` of the 3×3 grid. -/
theorem discretise_poisson_spec_witness :
    ((discretise_poisson 3).1 4 4 = 4 * ((3 : ℝ) - 1) ^ 2
      ∧ (discretise_poisson 3).2 4 = 1)
    ∧ ((discretise_poisson 3).1 0 0 = 1 ∧ (discretise_poisson 3).2 0 = 0) := by
  have hint := (discretise_poisson_spec 3 1 1 (by norm_num) (by norm_num)
    (by norm_num)).2 (by norm_num)
  have hbnd := (discretise_poisson_spec 3 0 0 (by norm_num) (by norm_num)
    (by norm_num)).1 (by norm_num)
  refine ⟨⟨?_, ?_⟩, ⟨?_, ?_⟩⟩
  · exact hint.1
  · exact hint.2.2.2.2.2.2
  · have := (hbnd.1 0 (by norm_num))
    rw [this]
    norm_num
  · exact hbnd.2

/-- Multiplication by a matrix with orthonormal columns preserves the sum of
squares. -/
theorem sumsq_orth (m : ℕ) (Q : ℕ → ℕ → ℝ)
    (hQcol : ∀ a, a < m → ∀ b, b < m →
      dotN m (fun r => Q r a) (fun r => Q r b) = if a = b then 1 else 0)
    (z : ℕ → ℝ) :
    ∑ i ∈ Finset.range m, (∑ l ∈ Finset.range m, Q i l * z l) ^ 2
      = ∑ l ∈ Finset.range m, z l ^ 2 := by
  have h1 : ∀ i ∈ Finset.range m, (∑ l ∈ Finset.range m, Q i l * z l) ^ 2
      = ∑ l ∈ Finset.range m, ∑ t ∈ Finset.range m, Q i l * z l * (Q i t * z t) := by
    intro i _
    rw [sq, Finset.sum_mul_sum]
  rw [Finset.sum_congr rfl h1, Finset.sum_comm]
  refine Finset.sum_congr rfl ?_
  intro l hl
  rw [Finset.sum_comm]
  have h2 : ∀ t ∈ Finset.range m,
      (∑ i ∈ Finset.range m, Q i l * z l * (Q i t * z t))
        = if l = t then z l ^ 2 else 0 := by
    intro t ht
    have h3 : (∑ i ∈ Finset.range m, Q i l * z l * (Q i t * z t))
        = z l * z t * dotN m (fun r => Q r l) (fun r => Q r t) := by
      unfold dotN
      rw [Finset.mul_sum]
      refine Finset.sum_congr rfl ?_
      intro i _
      ring
    rw [h3, hQcol l (Finset.mem_range.mp hl) t (Finset.mem_range.mp ht)]
    split_ifs with he
    · subst he
      ring
    · ring
  rw [Finset.sum_congr rfl h2, Finset.sum_ite_eq (Finset.range m) l
    (fun _ => z l ^ 2), if_pos hl]

/-- For `H = Q·R` on the (k+2)×(k+1) range with `Q` orthogonal, the squared
norm of the least-squares residual `βe₁ - H·y` equals the squared distance
between `R·y` and `β·(row 0 of Q)`. -/
theorem residual_sumsq (k : ℕ) (beta : ℝ) (H Q R : ℕ → ℕ → ℝ)
    (hQcol : ∀ a, a < k + 2 → ∀ b, b < k + 2 →
      dotN (k + 2) (fun r => Q r a) (fun r => Q r b) = if a = b then 1 else 0)
    (hQrow : dotN (k + 2) (fun l => Q 0 l) (fun l => Q 0 l) = 1)
    (hfact : ∀ i, i < k + 2 → ∀ j, j < k + 1 →
      H i j = ∑ l ∈ Finset.range (k + 2), Q i l * R l j)
    (y : ℕ → ℝ) :
    dotN (k + 2) (fun i => beta * e1N i - mulVecN (k + 1) H y i)
        (fun i => beta * e1N i - mulVecN (k + 1) H y i)
      = ∑ l ∈ Finset.range (k + 2),
          ((∑ j ∈ Finset.range (k + 1), R l j * y j) - beta * Q 0 l) ^ 2 := by
  have hHy : ∀ i ∈ Finset.range (k + 2),
      mulVecN (k + 1) H y i
        = ∑ l ∈ Finset.range (k + 2),
            Q i l * (∑ j ∈ Finset.range (k + 1), R l j * y j) := by
    intro i hi
    unfold mulVecN
    calc ∑ j ∈ Finset.range (k + 1), H i j * y j
        = ∑ j ∈ Finset.range (k + 1),
            (∑ l ∈ Finset.range (k + 2), Q i l * R l j) * y j := by
          refine Finset.sum_congr rfl ?_
          intro j hj
          rw [hfact i (Finset.mem_range.mp hi) j (Finset.mem_range.mp hj)]
      _ = ∑ j ∈ Finset.range (k + 1), ∑ l ∈ Finset.range (k + 2),
            Q i l * R l j * y j := by
          refine Finset.sum_congr rfl ?_
          intro j _
          rw [Finset.sum_mul]
      _ = ∑ l ∈ Finset.range (k + 2), ∑ j ∈ Finset.range (k + 1),
            Q i l * R l j * y j := Finset.sum_comm
      _ = ∑ l ∈ Finset.range (k + 2),
            Q i l * (∑ j ∈ Finset.range (k + 1), R l j * y j) := by
          refine Finset.sum_congr rfl ?_
          intro l _
          rw [Finset.mul_sum]
          refine Finset.sum_congr rfl ?_
          intro j _
          ring
  unfold dotN
  have hsq : ∀ i ∈ Finset.range (k + 2),
      (beta * e1N i - mulVecN (k + 1) H y i)
          * (beta * e1N i - mulVecN (k + 1) H y i)
        = (beta * e1N i) ^ 2
          - 2 * (beta * e1N i
              * (∑ l ∈ Finset.range (k + 2),
                  Q i l * (∑ j ∈ Finset.range (k + 1), R l j * y j)))
          + (∑ l ∈ Finset.range (k + 2),
              Q i l * (∑ j ∈ Finset.range (k + 1), R l j * y j)) ^ 2 := by
    intro i hi
    rw [hHy i hi]
    ring
  rw [Finset.sum_congr rfl hsq]
  rw [Finset.sum_add_distrib, Finset.sum_sub_distrib]
  have hA : ∑ i ∈ Finset.range (k + 2), (beta * e1N i) ^ 2 = beta ^ 2 := by
    have h : ∀ i ∈ Finset.range (k + 2),
        (beta * e1N i) ^ 2 = if i = 0 then beta ^ 2 else 0 := by
      intro i _
      unfold e1N
      split_ifs <;> ring
    rw [Finset.sum_congr rfl h, Finset.sum_ite_eq' (Finset.range (k + 2)) 0
      (fun _ => beta ^ 2), if_pos (Finset.mem_range.mpr (Nat.succ_pos _))]
  have hB : ∑ i ∈ Finset.range (k + 2),
      2 * (beta * e1N i * (∑ l ∈ Finset.range (k + 2),
        Q i l * (∑ j ∈ Finset.range (k + 1), R l j * y j)))
      = 2 * beta * (∑ l ∈ Finset.range (k + 2),
          Q 0 l * (∑ j ∈ Finset.range (k + 1), R l j * y j)) := by
    have h : ∀ i ∈ Finset.range (k + 2),
        2 * (beta * e1N i * (∑ l ∈ Finset.range (k + 2),
          Q i l * (∑ j ∈ Finset.range (k + 1), R l j * y j)))
        = if i = 0 then 2 * beta * (∑ l ∈ Finset.range (k + 2),
            Q i l * (∑ j ∈ Finset.range (k + 1), R l j * y j)) else 0 := by
      intro i _
      unfold e1N
      split_ifs <;> ring
    rw [Finset.sum_congr rfl h, Finset.sum_ite_eq' (Finset.range (k + 2)) 0
      (fun i => 2 * beta * (∑ l ∈ Finset.range (k + 2),
        Q i l * (∑ j ∈ Finset.range (k + 1), R l j * y j))),
      if_pos (Finset.mem_range.mpr (Nat.succ_pos _))]
  have hC : ∑ i ∈ Finset.range (k + 2),
      (∑ l ∈ Finset.range (k + 2),
        Q i l * (∑ j ∈ Finset.range (k + 1), R l j * y j)) ^ 2
      = ∑ l ∈ Finset.range (k + 2),
          (∑ j ∈ Finset.range (k + 1), R l j * y j) ^ 2 :=
    sumsq_orth (k + 2) Q hQcol (fun l => ∑ j ∈ Finset.range (k + 1), R l j * y j)
  rw [hA, hB, hC]
  have hexp : ∀ l ∈ Finset.range (k + 2),
      ((∑ j ∈ Finset.range (k + 1), R l j * y j) - beta * Q 0 l) ^ 2
        = (∑ j ∈ Finset.range (k + 1), R l j * y j) ^ 2
          - 2 * beta * (Q 0 l * (∑ j ∈ Finset.range (k + 1), R l j * y j))
          + beta ^ 2 * (Q 0 l * Q 0 l) := by
    intro l _
    ring
  rw [Finset.sum_congr rfl hexp, Finset.sum_add_distrib, Finset.sum_sub_distrib]
  have hD : ∑ l ∈ Finset.range (k + 2), beta ^ 2 * (Q 0 l * Q 0 l)
      = beta ^ 2 := by
    rw [← Finset.mul_sum]
    have : (∑ l ∈ Finset.range (k + 2), Q 0 l * Q 0 l) = 1 := hQrow
    rw [this, mul_one]
  have hE : ∑ l ∈ Finset.range (k + 2),
      2 * beta * (Q 0 l * (∑ j ∈ Finset.range (k + 1), R l j * y j))
      = 2 * beta * (∑ l ∈ Finset.range (k + 2),
          Q 0 l * (∑ j ∈ Finset.range (k + 1), R l j * y j)) := by
    rw [Finset.mul_sum]
  rw [hD, hE]
  ring

/-- C1 amended: for the complete QR factorisation `H = Q·R` of the
(k+2)×(k+1) Hessenberg matrix (`Q` orthogonal, `R` upper-triangular with
nonzero leading diagonal), the minimal residual of `min ‖βe₁ - H·y‖` equals
`|β·Q[0, k+1]|` — the **last** entry of the first row of `Q` — not the
penultimate entry `|β·Q[0, k]|` that the driver computes. -/
theorem qr_residual_formula (k : ℕ) (beta : ℝ) (H Q R : ℕ → ℕ → ℝ)
    (hQcol : ∀ a, a < k + 2 → ∀ b, b < k + 2 →
      dotN (k + 2) (fun r => Q r a) (fun r => Q r b) = if a = b then 1 else 0)
    (hQrow : dotN (k + 2) (fun l => Q 0 l) (fun l => Q 0 l) = 1)
    (hfact : ∀ i, i < k + 2 → ∀ j, j < k + 1 →
      H i j = ∑ l ∈ Finset.range (k + 2), Q i l * R l j)
    (hRtri : ∀ i j, j < i → R i j = 0)
    (hRdiag : ∀ j, j < k + 1 → R j j ≠ 0) :
    IsLeast {r : ℝ | ∃ y : ℕ → ℝ,
        r = normN (k + 2) (fun i => beta * e1N i - mulVecN (k + 1) H y i)}
      |beta * Q 0 (k + 1)| := by
  have hlastrow : ∀ y : ℕ → ℝ,
      (∑ j ∈ Finset.range (k + 1), R (k + 1) j * y j) = 0 := by
    intro y
    refine Finset.sum_eq_zero ?_
    intro j hj
    rw [hRtri (k + 1) j (Finset.mem_range.mp hj), zero_mul]
  constructor
  · -- membership: the back-substitution solution attains |β Q 0 (k+1)|
    refine ⟨backSubRec (k + 1) R (fun l => beta * Q 0 l), ?_⟩
    unfold normN
    rw [residual_sumsq k beta H Q R hQcol hQrow hfact]
    have hz : ∀ l ∈ Finset.range (k + 1),
        ((∑ j ∈ Finset.range (k + 1),
            R l j * backSubRec (k + 1) R (fun l2 => beta * Q 0 l2) j)
          - beta * Q 0 l) ^ 2 = 0 := by
      intro l hl
      have hsol := backSubRec_solves (k + 1) R (fun l2 => beta * Q 0 l2)
        (fun i _ j hj => hRtri i j hj) hRdiag l (Finset.mem_range.mp hl)
      unfold mulVecN at hsol
      rw [hsol]
      ring
    rw [Finset.sum_range_succ, Finset.sum_eq_zero hz, hlastrow, zero_add]
    rw [show ((0 : ℝ) - beta * Q 0 (k + 1)) ^ 2 = (beta * Q 0 (k + 1)) ^ 2 by ring]
    exact (Real.sqrt_sq_eq_abs _).symm
  · -- lower bound: every residual is at least |β Q 0 (k+1)|
    rintro r ⟨y, rfl⟩
    unfold normN
    rw [residual_sumsq k beta H Q R hQcol hQrow hfact]
    have h1 : (beta * Q 0 (k + 1)) ^ 2
        ≤ ∑ l ∈ Finset.range (k + 2),
            ((∑ j ∈ Finset.range (k + 1), R l j * y j) - beta * Q 0 l) ^ 2 := by
      rw [Finset.sum_range_succ, hlastrow]
      have h2 : 0 ≤ ∑ l ∈ Finset.range (k + 1),
          ((∑ j ∈ Finset.range (k + 1), R l j * y j) - beta * Q 0 l) ^ 2 :=
        Finset.sum_nonneg (fun l _ => sq_nonneg _)
      nlinarith [sq_nonneg (beta * Q 0 (k + 1))]
    calc |beta * Q 0 (k + 1)| = Real.sqrt ((beta * Q 0 (k + 1)) ^ 2) :=
        (Real.sqrt_sq_eq_abs _).symm
      _ ≤ _ := Real.sqrt_le_sqrt h1

/-- Witness for the amended C1 at `k = 0`, `β = 1`, `H = [[0],[1]]`,
`Q = [[0,1],[1,0]]`, `R = [[1],[0]]`: the minimal residual is
`|1·Q[0,1]| = 1`. -/
theorem qr_residual_formula_witness :
    IsLeast {r : ℝ | ∃ y : ℕ → ℝ,
        r = normN 2 (fun i => 1 * e1N i - mulVecN 1 cexH y i)}
      |1 * cexQ 0 1| := by
  refine qr_residual_formula 0 1 cexH cexQ cexR ?_ ?_ ?_ ?_ ?_
  · intro a ha b hb
    interval_cases a <;> interval_cases b <;>
      simp [dotN, cexQ, Finset.sum_range_succ]
  · simp [dotN, cexQ, Finset.sum_range_succ]
  · intro i hi j hj
    interval_cases i <;> interval_cases j <;>
      simp [cexH, cexQ, cexR, Finset.sum_range_succ]
  · intro i j hj
    unfold cexR
    rw [if_neg (by omega)]
  · intro j hj
    interval_cases j
    simp [cexR]

/-- C1 counterexample: at the same concrete complete QR factorisation
(`k = 0`, `β = 1`, `H = [[0],[1]] = Q·R` with `Q = [[0,1],[1,0]]`,
`R = [[1],[0]]`), the driver's residual estimate `|β·Q[0,k]| = |Q[0,0]| = 0`
is **not** the minimal residual of `min ‖βe₁ - H·y‖` (every residual is
`√(1 + y₀²) ≥ 1 > 0`, so 0 is not even attained). -/
theorem qr_residual_cex :
    ¬ IsLeast {r : ℝ | ∃ y : ℕ → ℝ,
        r = normN 2 (fun i => 1 * e1N i - mulVecN 1 cexH y i)}
      |1 * cexQ 0 0| := by
  intro hle
  obtain ⟨⟨y, hy⟩, _⟩ := hle
  have h0 : |(1 : ℝ) * cexQ 0 0| = 0 := by
    simp [cexQ]
  rw [h0] at hy
  have hdot : dotN 2 (fun i => 1 * e1N i - mulVecN 1 cexH y i)
      (fun i => 1 * e1N i - mulVecN 1 cexH y i) = 1 + y 0 * y 0 := by
    simp [dotN, mulVecN, e1N, cexH, Finset.sum_range_succ]
  rw [normN, hdot] at hy
  have hpos : 0 < 1 + y 0 * y 0 := by nlinarith [mul_self_nonneg (y 0)]
  have hsq := Real.sqrt_pos.mpr hpos
  rw [← hy] at hsq
  exact lt_irrefl 0 hsq

end GMRES
